import Mathlib

/-!
Verification of the numeric core of the `faif-book` notebooks.

Each Python class or function that a claim touches is embedded as a Lean
definition (NumPy float arrays become `List α`, `Fin n → α`, or
`Matrix (Fin m) (Fin n) α` over a linear ordered field `α`, kept
polymorphic so the definitions stay executable, e.g. at `α = ℚ`).
Library functions the notebooks import (`np.exp`, `numpy.linalg.inv`,
`numpy.linalg.pinv`) are passed in as parameters of the embedding; the
theorems instantiate `α` at `ℝ` and those parameters at `Real.exp` and
matrix inversion.
-/

set_option maxHeartbeats 1000000

/-! ### Basic helpers: NumPy-style mean and max over lists -/

/-- `np.mean` over a flat array: sum divided by length. -/
def np_mean {α : Type} [Field α] (y : List α) : α := y.sum / y.length

/-- `np.max` over a flat array (0 on the empty array, which NumPy rejects). -/
def maxOf {α : Type} [LinearOrder α] [Zero α] : List α → α
  | [] => 0
  | [a] => a
  | a :: b :: l => max a (maxOf (b :: l))

theorem maxOf_mem {α : Type} [LinearOrder α] [Zero α] :
    ∀ (l : List α), l ≠ [] → maxOf l ∈ l := by
  intro l
  induction l with
  | nil => intro h; exact absurd rfl h
  | cons a t ih =>
    intro _
    cases t with
    | nil => simp [maxOf]
    | cons b t2 =>
      rw [show maxOf (a :: b :: t2) = max a (maxOf (b :: t2)) from rfl]
      rcases le_total a (maxOf (b :: t2)) with h | h
      · rw [max_eq_right h]
        exact List.mem_cons_of_mem _ (ih (by simp))
      · rw [max_eq_left h]
        exact List.mem_cons_self _ _

theorem le_maxOf {α : Type} [LinearOrder α] [Zero α] :
    ∀ (l : List α), ∀ x ∈ l, x ≤ maxOf l := by
  intro l
  induction l with
  | nil => intro x hx; exact absurd hx (List.not_mem_nil x)
  | cons a t ih =>
    intro x hx
    cases t with
    | nil =>
      rcases List.mem_cons.mp hx with h | h
      · simp [maxOf, h]
      · exact absurd h (List.not_mem_nil x)
    | cons b t2 =>
      rw [show maxOf (a :: b :: t2) = max a (maxOf (b :: t2)) from rfl]
      rcases List.mem_cons.mp hx with h | h
      · exact h ▸ le_max_left _ _
      · exact le_trans (ih x h) (le_max_right _ _)

theorem maxOf_eq_of {α : Type} [LinearOrder α] [Zero α]
    (l : List α) (a : α) (ha : a ∈ l) (hub : ∀ x ∈ l, x ≤ a) :
    maxOf l = a := by
  have hne : l ≠ [] := by
    intro h; rw [h] at ha; exact absurd ha (List.not_mem_nil a)
  exact le_antisymm (hub _ (maxOf_mem l hne)) (le_maxOf l a ha)

/-! ### `ExactLinearAgent` (ch2/7_scaling_to_multiple_samples.ipynb)

`infer_state` forms `log_gen_model = log_likelihood + log_prior` (pointwise
over the grid) and then sets
`posterior = np.exp(log_gen_model - np.max(log_gen_model))`.
`np.exp` is the parameter `e`; the theorems instantiate it at `Real.exp`. -/

/-- The agent's linear generating function `gm`: `beta_1 * x + beta_0`. -/
def ExactLinearAgent_gm {α : Type} [Field α] (beta_0 beta_1 x : α) : α :=
  beta_1 * x + beta_0

/-- `log_gen_model = log_likelihood + log_prior`, pointwise over the grid. -/
def log_gen_model {α : Type} [Field α] (log_likelihood log_prior : List α) :
    List α :=
  List.zipWith (· + ·) log_likelihood log_prior

/-- The final line of `ExactLinearAgent.infer_state`:
`posterior = exp(log_gen_model - max(log_gen_model))`, elementwise. -/
def infer_state_posterior {α : Type} [LinearOrderedField α] (e : α → α)
    (log_likelihood log_prior : List α) : List α :=
  (log_gen_model log_likelihood log_prior).map
    (fun v => e (v - maxOf (log_gen_model log_likelihood log_prior)))

theorem getD_map_of_lt {α : Type} [LinearOrderedField α] (f : α → α) :
    ∀ (l : List α) (i : ℕ), i < l.length → (l.map f).getD i 0 = f (l.getD i 0) := by
  intro l
  induction l with
  | nil => intro i hi; exact absurd hi (by simp)
  | cons a t ih =>
    intro i hi
    cases i with
    | zero => rfl
    | succ j =>
      have : j < t.length := by simpa using hi
      simpa using ih j this

theorem getD_zipWith_add {α : Type} [LinearOrderedField α] :
    ∀ (l1 l2 : List α) (i : ℕ), i < l1.length → i < l2.length →
      (List.zipWith (· + ·) l1 l2).getD i 0 = l1.getD i 0 + l2.getD i 0 := by
  intro l1
  induction l1 with
  | nil => intro l2 i hi _; exact absurd hi (by simp)
  | cons a t ih =>
    intro l2 i hi1 hi2
    cases l2 with
    | nil => exact absurd hi2 (by simp)
    | cons b t2 =>
      cases i with
      | zero => rfl
      | succ j =>
        have h1 : j < t.length := by simpa using hi1
        have h2 : j < t2.length := by simpa using hi2
        simpa using ih t2 j h1 h2

theorem length_log_gen_model {α : Type} [Field α]
    (ll lp : List α) (h : ll.length = lp.length) :
    (log_gen_model ll lp).length = ll.length := by
  simp [log_gen_model, h]

/-- C1: for every pair of equal-length log-likelihood and log-prior arrays,
the posterior produced by `ExactLinearAgent.infer_state` satisfies
`posterior[i] = exp(log_likelihood[i] + log_prior[i] - max_j(log_likelihood[j] + log_prior[j]))`
at every grid index `i`. -/
theorem exact_linear_agent_posterior_pointwise
    (ll lp : List ℝ) (h : ll.length = lp.length) (i : ℕ) (hi : i < ll.length) :
    (infer_state_posterior Real.exp ll lp).getD i 0 =
      Real.exp (ll.getD i 0 + lp.getD i 0 - maxOf (log_gen_model ll lp)) := by
  have hlen : i < (log_gen_model ll lp).length := by
    rw [length_log_gen_model ll lp h]; exact hi
  rw [infer_state_posterior, getD_map_of_lt _ _ _ hlen,
    show log_gen_model ll lp = List.zipWith (· + ·) ll lp from rfl,
    getD_zipWith_add ll lp i hi (h ▸ hi)]

/-- Witness for C1 at `ll = [1, 2]`, `lp = [0, 3]`, `i = 1`. -/
theorem exact_linear_agent_posterior_pointwise_witness :
    ([(1 : ℝ), 2].length = [(0 : ℝ), 3].length) ∧
      (infer_state_posterior Real.exp [(1 : ℝ), 2] [(0 : ℝ), 3]).getD 1 0 =
        Real.exp (([(1 : ℝ), 2]).getD 1 0 + ([(0 : ℝ), 3]).getD 1 0 -
          maxOf (log_gen_model [(1 : ℝ), 2] [(0 : ℝ), 3])) :=
  ⟨by simp,
   exact_linear_agent_posterior_pointwise [(1 : ℝ), 2] [(0 : ℝ), 3] (by simp) 1
     (by simp)⟩

/-- C2: whenever the combined log generative model is a (finite) nonempty
array over the grid, the posterior produced by `ExactLinearAgent.infer_state`
attains `max(posterior) = 1` exactly. -/
theorem exact_linear_agent_posterior_max_one
    (ll lp : List ℝ) (h : log_gen_model ll lp ≠ []) :
    maxOf (infer_state_posterior Real.exp ll lp) = 1 := by
  set g := log_gen_model ll lp with hg
  apply maxOf_eq_of
  · refine List.mem_map.mpr ⟨maxOf g, maxOf_mem g h, ?_⟩
    rw [sub_self, Real.exp_zero]
  · intro x hx
    rcases List.mem_map.mp hx with ⟨v, hv, rfl⟩
    have hle : v - maxOf g ≤ 0 := sub_nonpos.mpr (le_maxOf g v hv)
    calc Real.exp (v - maxOf g) ≤ Real.exp 0 := Real.exp_le_exp.mpr hle
      _ = 1 := Real.exp_zero

/-- Witness for C2 at `ll = [1, 2]`, `lp = [0, 3]`. -/
theorem exact_linear_agent_posterior_max_one_witness :
    maxOf (infer_state_posterior Real.exp [(1 : ℝ), 2] [(0 : ℝ), 3]) = 1 :=
  exact_linear_agent_posterior_max_one [(1 : ℝ), 2] [(0 : ℝ), 3]
    (by simp [log_gen_model])

/-! ### Scalar closed-form estimators (ch2/8_analytic_map_mle_estimation.ipynb)

`LinearMaximumLikelihoodAgent.infer_state` sets
`posterior_mode = (np.mean(y) - beta_0) / beta_1`;
`LinearMaximumAprioriAgent.infer_state` sets
`posterior_mode = (beta_1 * (np.mean(y) - beta_0) + m_x) / (beta_1**2 + 1)`. -/

/-- `LinearMaximumLikelihoodAgent.infer_state`. -/
def LinearMaximumLikelihoodAgent_infer_state {α : Type} [Field α]
    (beta_0 beta_1 : α) (y : List α) : α :=
  (np_mean y - beta_0) / beta_1

/-- `LinearMaximumAprioriAgent.infer_state`. -/
def LinearMaximumAprioriAgent_infer_state {α : Type} [Field α]
    (beta_0 beta_1 m_x : α) (y : List α) : α :=
  (beta_1 * (np_mean y - beta_0) + m_x) / (beta_1 ^ 2 + 1)

/-- Negative Gaussian log-likelihood (up to the additive constant) for the
linear generating function: `sum_i (y_i - (beta_0 + beta_1*x))^2 / (2*sigma2)`. -/
def neg_log_likelihood {α : Type} [Field α]
    (beta_0 beta_1 sigma2 x : α) (y : List α) : α :=
  ((y.map (fun yi => (yi - (beta_0 + beta_1 * x)) ^ 2)).sum) / (2 * sigma2)

theorem sum_map_sub_const {α : Type} [Field α] (y : List α) (b : α) :
    (y.map (fun t => t - b)).sum = y.sum - y.length * b := by
  induction y with
  | nil => simp
  | cons a t ih => simp [ih]; ring

theorem sum_map_sq_shift {α : Type} [Field α] (y : List α) (b c : α) :
    (y.map (fun t => (t - b + c) ^ 2)).sum =
      (y.map (fun t => (t - b) ^ 2)).sum +
        2 * c * (y.map (fun t => t - b)).sum + y.length * c ^ 2 := by
  induction y with
  | nil => simp
  | cons a t ih => simp [ih]; ring

theorem np_mean_replicate (n : ℕ) (hn : 1 ≤ n) (y0 : ℝ) :
    np_mean (List.replicate n y0) = y0 := by
  have hn' : (n : ℝ) ≠ 0 := Nat.cast_ne_zero.mpr (by omega)
  simp [np_mean, List.sum_replicate, smul_eq_mul]
  field_simp

/-- C4: for a nonempty observation batch and `beta_1 ≠ 0`, the value returned
by `LinearMaximumLikelihoodAgent.infer_state` is the unique minimizer of the
negative Gaussian log-likelihood for every noise variance `sigma2 > 0`
(the returned value itself takes no `sigma2` argument). -/
theorem mle_unique_minimizer
    (beta_0 beta_1 sigma2 : ℝ) (y : List ℝ) (hy : y ≠ []) (hb : beta_1 ≠ 0)
    (hs : 0 < sigma2) (x : ℝ)
    (hx : x ≠ LinearMaximumLikelihoodAgent_infer_state beta_0 beta_1 y) :
    neg_log_likelihood beta_0 beta_1 sigma2
        (LinearMaximumLikelihoodAgent_infer_state beta_0 beta_1 y) y <
      neg_log_likelihood beta_0 beta_1 sigma2 x y := by
  set xh := LinearMaximumLikelihoodAgent_infer_state beta_0 beta_1 y with hxh
  set b := beta_0 + beta_1 * xh with hbdef
  set c := beta_1 * (xh - x) with hcdef
  have hn : (0 : ℝ) < y.length := by
    exact_mod_cast List.length_pos.mpr hy
  have hb1x : beta_1 * xh = np_mean y - beta_0 := by
    rw [hxh, LinearMaximumLikelihoodAgent_infer_state]
    field_simp
  have hsum_b : (y.map (fun t => t - b)).sum = 0 := by
    rw [sum_map_sub_const, hbdef]
    have : (y.length : ℝ) * (beta_0 + beta_1 * xh) = y.sum := by
      rw [hb1x, np_mean]
      field_simp
      ring
    rw [this]; ring
  have hfun : (fun yi : ℝ => (yi - (beta_0 + beta_1 * x)) ^ 2) =
      (fun t => (t - b + c) ^ 2) := by
    funext t
    rw [hbdef, hcdef]; ring
  have hexpand : neg_log_likelihood beta_0 beta_1 sigma2 x y =
      neg_log_likelihood beta_0 beta_1 sigma2 xh y +
        (y.length : ℝ) * c ^ 2 / (2 * sigma2) := by
    rw [neg_log_likelihood, hfun, sum_map_sq_shift, hsum_b,
      neg_log_likelihood, hbdef]
    ring
  have hc : c ≠ 0 := by
    rw [hcdef]
    exact mul_ne_zero hb (sub_ne_zero.mpr (Ne.symm hx))
  have hc2 : 0 < c ^ 2 := (sq_nonneg c).lt_of_ne (Ne.symm (pow_ne_zero 2 hc))
  have hpos : 0 < (y.length : ℝ) * c ^ 2 / (2 * sigma2) := by positivity
  rw [hexpand]
  linarith

/-- Witness for C4 at `y = [7]`, `beta_0 = 3`, `beta_1 = 2`, `sigma2 = 1`,
`x = 0` (the MLE there is `2`). -/
theorem mle_unique_minimizer_witness :
    neg_log_likelihood (3 : ℝ) 2 1
        (LinearMaximumLikelihoodAgent_infer_state 3 2 [7]) [7] <
      neg_log_likelihood (3 : ℝ) 2 1 0 [7] :=
  mle_unique_minimizer 3 2 1 [7] (by simp) (by norm_num) (by norm_num) 0
    (by norm_num [LinearMaximumLikelihoodAgent_infer_state, np_mean])

/-- C3: for `beta_1 ≠ 0`, `LinearMaximumAprioriAgent.infer_state` returns
`(beta_1*(mean(y) - beta_0) + m_x) / (beta_1^2 + 1)`; when `m_x` differs from
the MLE this value lies strictly between the MLE and `m_x`; and with
`beta_0 = 3`, `beta_1 = 2`, `m_x = 4`, `y = [7]` it equals `2.4`. -/
theorem map_precision_weighted_blend
    (beta_0 beta_1 m_x : ℝ) (y : List ℝ) (_hy : y ≠ []) (hb : beta_1 ≠ 0) :
    LinearMaximumAprioriAgent_infer_state beta_0 beta_1 m_x y =
        (beta_1 * (np_mean y - beta_0) + m_x) / (beta_1 ^ 2 + 1) ∧
      (m_x ≠ LinearMaximumLikelihoodAgent_infer_state beta_0 beta_1 y →
        (LinearMaximumLikelihoodAgent_infer_state beta_0 beta_1 y <
            LinearMaximumAprioriAgent_infer_state beta_0 beta_1 m_x y ∧
          LinearMaximumAprioriAgent_infer_state beta_0 beta_1 m_x y < m_x) ∨
        (m_x < LinearMaximumAprioriAgent_infer_state beta_0 beta_1 m_x y ∧
          LinearMaximumAprioriAgent_infer_state beta_0 beta_1 m_x y <
            LinearMaximumLikelihoodAgent_infer_state beta_0 beta_1 y)) ∧
      LinearMaximumAprioriAgent_infer_state (3 : ℝ) 2 4 [7] = 2.4 := by
  refine ⟨rfl, ?_, ?_⟩
  · intro hne
    set u := LinearMaximumLikelihoodAgent_infer_state beta_0 beta_1 y with hu
    set v := LinearMaximumAprioriAgent_infer_state beta_0 beta_1 m_x y with hv
    have hd : (0 : ℝ) < beta_1 ^ 2 + 1 := by positivity
    have hb2 : 0 < beta_1 ^ 2 :=
      (sq_nonneg beta_1).lt_of_ne (Ne.symm (pow_ne_zero 2 hb))
    have key : v = (beta_1 ^ 2 * u + m_x) / (beta_1 ^ 2 + 1) := by
      rw [hv, hu, LinearMaximumAprioriAgent_infer_state,
        LinearMaximumLikelihoodAgent_infer_state]
      field_simp
      ring
    rcases lt_trichotomy u m_x with h | h | h
    · left
      constructor
      · rw [key, lt_div_iff₀ hd]; nlinarith
      · rw [key, div_lt_iff₀ hd]; nlinarith
    · exact absurd h.symm hne
    · right
      constructor
      · rw [key, lt_div_iff₀ hd]; nlinarith
      · rw [key, div_lt_iff₀ hd]; nlinarith
  · simp only [LinearMaximumAprioriAgent_infer_state, np_mean, List.sum_cons,
      List.sum_nil, List.length_cons, List.length_nil, Nat.cast_one]
    norm_num

/-- Witness for C3: the concrete `2.4` instance, obtained from the theorem at
`beta_0 = 3`, `beta_1 = 2`, `m_x = 4`, `y = [7]`. -/
theorem map_precision_weighted_blend_witness :
    LinearMaximumAprioriAgent_infer_state (3 : ℝ) 2 4 [7] = 2.4 :=
  (map_precision_weighted_blend 3 2 4 [7] (by simp) (by norm_num)).2.2

/-! ### C7: the "MAP effect vanishes with more data" claim

For a batch of `N` identical clean observations the closed-form
`LinearMaximumAprioriAgent` depends on the batch only through `np.mean(y)`,
so its estimate is independent of `N`: the MAP-MLE gap does not shrink.
The vanishing-prior effect belongs to the grid-based `ExactLinearAgent`,
whose accumulated log-likelihood scales with `N` while the log-prior stays
fixed. -/

/-- Counterexample to C7 as stated: with `beta_0 = 3`, `beta_1 = 2`,
`m_x = 4` and clean observations `y_i = 7` (true state `x* = 2`), the
closed-form MAP estimate at `N = 30` equals the one at `N = 1`, and the
MAP-MLE gap is `2/5` at both sample counts: it does not shrink as `N`
grows. -/
theorem map_effect_counterexample :
    LinearMaximumAprioriAgent_infer_state (3 : ℝ) 2 4 (List.replicate 30 7) =
        LinearMaximumAprioriAgent_infer_state (3 : ℝ) 2 4 [7] ∧
      LinearMaximumAprioriAgent_infer_state (3 : ℝ) 2 4 (List.replicate 30 7) -
          LinearMaximumLikelihoodAgent_infer_state (3 : ℝ) 2 (List.replicate 30 7) =
        2 / 5 ∧
      LinearMaximumAprioriAgent_infer_state (3 : ℝ) 2 4 [7] -
          LinearMaximumLikelihoodAgent_infer_state (3 : ℝ) 2 [7] = 2 / 5 := by
  have h30 : np_mean (List.replicate 30 (7 : ℝ)) = 7 :=
    np_mean_replicate 30 (by norm_num) 7
  have h1 : np_mean [(7 : ℝ)] = 7 := by
    simp [np_mean]
  have hmap30 : LinearMaximumAprioriAgent_infer_state (3 : ℝ) 2 4
      (List.replicate 30 7) = 12 / 5 := by
    rw [LinearMaximumAprioriAgent_infer_state, h30]; norm_num
  have hmap1 : LinearMaximumAprioriAgent_infer_state (3 : ℝ) 2 4 [7] = 12 / 5 := by
    rw [LinearMaximumAprioriAgent_infer_state, h1]; norm_num
  have hmle30 : LinearMaximumLikelihoodAgent_infer_state (3 : ℝ) 2
      (List.replicate 30 7) = 2 := by
    rw [LinearMaximumLikelihoodAgent_infer_state, h30]; norm_num
  have hmle1 : LinearMaximumLikelihoodAgent_infer_state (3 : ℝ) 2 [7] = 2 := by
    rw [LinearMaximumLikelihoodAgent_infer_state, h1]; norm_num
  refine ⟨?_, ?_, ?_⟩
  · rw [hmap30, hmap1]
  · rw [hmap30, hmle30]; norm_num
  · rw [hmap1, hmle1]; norm_num

/-- C7 (amended): (a) for clean, identical observations the closed-form
`LinearMaximumAprioriAgent` estimate is independent of the sample count `N`,
so its gap to the MLE does not shrink; (b) for the grid-based
`ExactLinearAgent`, whose log-likelihood accumulates over the `N` samples
(`log_likelihood = N * single-sample log-likelihood` for identical samples)
while the log-prior is fixed, the posterior is eventually strictly maximized
at the grid index maximizing the log-likelihood alone — the grid MAP mode
coincides with the grid MLE mode for all sufficiently large `N`. -/
theorem map_effect_amended :
    (∀ (beta_0 beta_1 m_x y0 : ℝ) (N : ℕ), 1 ≤ N →
      LinearMaximumAprioriAgent_infer_state beta_0 beta_1 m_x
          (List.replicate N y0) =
        LinearMaximumAprioriAgent_infer_state beta_0 beta_1 m_x [y0]) ∧
    (∀ (ll lp : List ℝ) (istar : ℕ), ll.length = lp.length →
      istar < ll.length →
      (∀ j < ll.length, j ≠ istar → ll.getD j 0 < ll.getD istar 0) →
      ∃ N0 : ℕ, ∀ N ≥ N0, ∀ j < ll.length, j ≠ istar →
        (infer_state_posterior Real.exp
            (ll.map (fun v => (N : ℝ) * v)) lp).getD j 0 <
          (infer_state_posterior Real.exp
            (ll.map (fun v => (N : ℝ) * v)) lp).getD istar 0) := by
  constructor
  · intro beta_0 beta_1 m_x y0 N hN
    rw [LinearMaximumAprioriAgent_infer_state,
      LinearMaximumAprioriAgent_infer_state, np_mean_replicate N hN y0]
    simp [np_mean]
  · intro ll lp istar hlen histar hmax
    refine ⟨(Finset.range ll.length).sup (fun j => if j = istar then 0 else
      Nat.ceil ((lp.getD j 0 - lp.getD istar 0) /
        (ll.getD istar 0 - ll.getD j 0)) + 1), ?_⟩
    intro N hN j hj hne
    have hmaplen : (ll.map (fun v => (N : ℝ) * v)).length = lp.length := by
      simp [hlen]
    have hgetj := exact_linear_agent_posterior_pointwise
      (ll.map (fun v => (N : ℝ) * v)) lp hmaplen j (by simpa using hj)
    have hgeti := exact_linear_agent_posterior_pointwise
      (ll.map (fun v => (N : ℝ) * v)) lp hmaplen istar (by simpa using histar)
    rw [hgetj, hgeti, getD_map_of_lt _ ll j hj, getD_map_of_lt _ ll istar histar]
    rw [Real.exp_lt_exp]
    have hgap : 0 < ll.getD istar 0 - ll.getD j 0 :=
      sub_pos.mpr (hmax j hj hne)
    have hNj : Nat.ceil ((lp.getD j 0 - lp.getD istar 0) /
        (ll.getD istar 0 - ll.getD j 0)) + 1 ≤ N := by
      refine le_trans ?_ hN
      have hmem : j ∈ Finset.range ll.length := Finset.mem_range.mpr hj
      have := Finset.le_sup (f := fun j => if j = istar then 0 else
        Nat.ceil ((lp.getD j 0 - lp.getD istar 0) /
          (ll.getD istar 0 - ll.getD j 0)) + 1) hmem
      simpa [if_neg hne] using this
    have hNreal : (lp.getD j 0 - lp.getD istar 0) /
        (ll.getD istar 0 - ll.getD j 0) < (N : ℝ) := by
      calc (lp.getD j 0 - lp.getD istar 0) / (ll.getD istar 0 - ll.getD j 0)
          ≤ (Nat.ceil ((lp.getD j 0 - lp.getD istar 0) /
              (ll.getD istar 0 - ll.getD j 0)) : ℝ) := Nat.le_ceil _
        _ < (Nat.ceil ((lp.getD j 0 - lp.getD istar 0) /
              (ll.getD istar 0 - ll.getD j 0)) : ℝ) + 1 := by linarith
        _ ≤ (N : ℝ) := by exact_mod_cast hNj
    have hkey : lp.getD j 0 - lp.getD istar 0 <
        (N : ℝ) * (ll.getD istar 0 - ll.getD j 0) :=
      (div_lt_iff₀ hgap).mp hNreal
    have hsub : (N : ℝ) * ll.getD j 0 + lp.getD j 0 <
        (N : ℝ) * ll.getD istar 0 + lp.getD istar 0 := by nlinarith
    exact sub_lt_sub_right hsub _

/-- Witness for the amended C7: part (a) at the concrete `N = 30` clean
batch, part (b) at the two-point grid `ll = [1, 0]`, `lp = [0, 5]` with
`istar = 0`. -/
theorem map_effect_amended_witness :
    (LinearMaximumAprioriAgent_infer_state (3 : ℝ) 2 4 (List.replicate 30 7) =
        LinearMaximumAprioriAgent_infer_state (3 : ℝ) 2 4 [7]) ∧
      ∃ N0 : ℕ, ∀ N ≥ N0, ∀ j < [(1 : ℝ), 0].length, j ≠ 0 →
        (infer_state_posterior Real.exp
            ([(1 : ℝ), 0].map (fun v => (N : ℝ) * v)) [(0 : ℝ), 5]).getD j 0 <
          (infer_state_posterior Real.exp
            ([(1 : ℝ), 0].map (fun v => (N : ℝ) * v)) [(0 : ℝ), 5]).getD 0 0 :=
  ⟨map_effect_amended.1 3 2 4 7 30 (by norm_num),
   map_effect_amended.2 [(1 : ℝ), 0] [(0 : ℝ), 5] 0 (by simp) (by simp)
     (by
       intro j hj hne
       match j, hne with
       | 1, _ => simp [List.getD]
       | (k+2), _ => simp at hj)⟩

/-! ### `StaticEnvironment.generate` (unnamed/part_001 and ch3/6_factor_analysis_em.ipynb)

`generate` draws a state-noise vector and an observation-noise vector, then
returns `_generating_function(x_star + x_noise) + y_noise`. The two noise
draws are explicit arguments of the embedding. The ch3/6 variant also
stores the noised state on the environment (`self.x_star_noise = ...`),
modelled by returning it as a first component. -/

/-- `StaticEnvironment._generating_function`: `Theta_star @ x_star + b_star`. -/
def StaticEnvironment_generating_function {α : Type} [Field α] {Cd D : ℕ}
    (Theta_star : Matrix (Fin D) (Fin Cd) α) (b_star : Fin D → α)
    (x_star : Fin Cd → α) : Fin D → α :=
  Theta_star.mulVec x_star + b_star

/-- `StaticEnvironment.generate` (unnamed/part_001): noise-ifies the
external state, then produces the observation. -/
def StaticEnvironment_generate {α : Type} [Field α] {Cd D : ℕ}
    (Theta_star : Matrix (Fin D) (Fin Cd) α) (b_star : Fin D → α)
    (x_star x_noise : Fin Cd → α) (y_noise : Fin D → α) : Fin D → α :=
  StaticEnvironment_generating_function Theta_star b_star (x_star + x_noise) +
    y_noise

/-- `StaticEnvironment.generate` (ch3/6 variant): additionally stores the
noised state as the attribute `self.x_star_noise`, returned here as the
first component. -/
def StaticEnvironment_generate_em {α : Type} [Field α] {Cd D : ℕ}
    (Theta_star : Matrix (Fin D) (Fin Cd) α) (b_star : Fin D → α)
    (x_star x_noise : Fin Cd → α) (y_noise : Fin D → α) :
    (Fin Cd → α) × (Fin D → α) :=
  (x_star + x_noise,
   StaticEnvironment_generating_function Theta_star b_star (x_star + x_noise) +
     y_noise)

/-- Counterexample to C9: with `Theta_star = 1`, `b_star = 0`, `x_star = 0`
and a nonzero state-noise draw `x_noise = 1` (observation noise `0`), the
output of `generate` differs from `f(x_star) + y_noise`, and the ch3/6
variant mutates the environment attribute `x_star_noise` away from the
input state. -/
theorem static_environment_generate_counterexample :
    StaticEnvironment_generate (1 : Matrix (Fin 1) (Fin 1) ℝ) 0 0 1 0 ≠
        StaticEnvironment_generating_function (1 : Matrix (Fin 1) (Fin 1) ℝ) 0 0
          + 0 ∧
      (StaticEnvironment_generate_em (1 : Matrix (Fin 1) (Fin 1) ℝ) 0 0 1 0).1 ≠
        (0 : Fin 1 → ℝ) := by
  constructor
  · intro h
    have h0 := congrFun h 0
    simp [StaticEnvironment_generate, StaticEnvironment_generating_function,
      Matrix.mulVec] at h0
  · intro h
    have h0 := congrFun h 0
    simp [StaticEnvironment_generate_em] at h0

/-- C9 (amended): `generate` perturbs the input state with the state-noise
draw before applying the affine generating function, so the observation is
`f(x_star + x_noise) + y_noise`; equivalently, because `f` is affine, it is
`f(x_star)` plus the combined noise term `Theta_star @ x_noise + y_noise`.
The ch3/6 variant additionally records the noised state on the environment
object. -/
theorem static_environment_generate_amended {Cd D : ℕ}
    (Theta_star : Matrix (Fin D) (Fin Cd) ℝ) (b_star : Fin D → ℝ)
    (x_star x_noise : Fin Cd → ℝ) (y_noise : Fin D → ℝ) :
    StaticEnvironment_generate Theta_star b_star x_star x_noise y_noise =
        StaticEnvironment_generating_function Theta_star b_star
          (x_star + x_noise) + y_noise ∧
      StaticEnvironment_generate Theta_star b_star x_star x_noise y_noise =
        StaticEnvironment_generating_function Theta_star b_star x_star +
          (Theta_star.mulVec x_noise + y_noise) ∧
      (StaticEnvironment_generate_em Theta_star b_star x_star x_noise
          y_noise).1 = x_star + x_noise ∧
      (StaticEnvironment_generate_em Theta_star b_star x_star x_noise
          y_noise).2 =
        StaticEnvironment_generate Theta_star b_star x_star x_noise y_noise := by
  refine ⟨rfl, ?_, rfl, rfl⟩
  rw [StaticEnvironment_generate, StaticEnvironment_generating_function,
    StaticEnvironment_generating_function, Matrix.mulVec_add]
  abel

/-! ### `FactorAnalysisAgent.infer_states` (unnamed/part_001)

Computes `Pi_x = inv(cov_x)`, `Pi_y = inv(cov_y)`,
`cov_posterior = inv(Pi_x + N * Pi_y)` and
`mean_posterior = cov_posterior @ (Pi_y @ (N * mean(y, axis=0)) + Pi_x @ mu_x)`.
`numpy.linalg.inv` is the parameter `minv`; the theorem instantiates it at
matrix inversion over `ℝ`. -/

/-- `np.mean(y, axis=0)` for an `n × d` array: columnwise mean. -/
def np_mean_axis0 {α : Type} [Field α] {n d : ℕ} (y : Fin n → Fin d → α) :
    Fin d → α :=
  fun i => (∑ s, y s i) / n

/-- `FactorAnalysisAgent.infer_states`: posterior covariance and mean of the
linear-Gaussian system. -/
def FactorAnalysisAgent_infer_states {α : Type} [Field α] {d n : ℕ}
    (minv : Matrix (Fin d) (Fin d) α → Matrix (Fin d) (Fin d) α)
    (cov_x cov_y : Matrix (Fin d) (Fin d) α) (mu_x : Fin d → α)
    (y : Fin n → Fin d → α) :
    Matrix (Fin d) (Fin d) α × (Fin d → α) :=
  let Pi_x := minv cov_x
  let Pi_y := minv cov_y
  let cov_posterior := minv (Pi_x + (n : α) • Pi_y)
  (cov_posterior,
   cov_posterior.mulVec
     (Pi_y.mulVec ((n : α) • np_mean_axis0 y) + Pi_x.mulVec mu_x))

/-- C5: `FactorAnalysisAgent.infer_states` sets the posterior covariance to
`(inv(cov_x) + N*inv(cov_y))⁻¹` and the posterior mean to
`cov_posterior @ (inv(cov_y) @ (N * mean(y)) + inv(cov_x) @ mu_x)`; under
the claim's invertibility hypotheses the returned covariance is a genuine
inverse of `inv(cov_x) + N*inv(cov_y)`. -/
theorem factor_analysis_agent_infer_states_spec {d n : ℕ}
    (cov_x cov_y : Matrix (Fin d) (Fin d) ℝ) (mu_x : Fin d → ℝ)
    (y : Fin n → Fin d → ℝ)
    (_h1 : IsUnit cov_x.det) (_h2 : IsUnit cov_y.det)
    (h3 : IsUnit (cov_x⁻¹ + (n : ℝ) • cov_y⁻¹).det) :
    (FactorAnalysisAgent_infer_states Inv.inv cov_x cov_y mu_x y).1 =
        (cov_x⁻¹ + (n : ℝ) • cov_y⁻¹)⁻¹ ∧
      (FactorAnalysisAgent_infer_states Inv.inv cov_x cov_y mu_x y).2 =
        ((cov_x⁻¹ + (n : ℝ) • cov_y⁻¹)⁻¹).mulVec
          (cov_y⁻¹.mulVec ((n : ℝ) • np_mean_axis0 y) +
            cov_x⁻¹.mulVec mu_x) ∧
      (FactorAnalysisAgent_infer_states Inv.inv cov_x cov_y mu_x y).1 *
          (cov_x⁻¹ + (n : ℝ) • cov_y⁻¹) = 1 :=
  ⟨rfl, rfl, Matrix.nonsing_inv_mul _ h3⟩

/-- Witness for C5 at `d = 1`, `n = 1`, `cov_x = cov_y = 1`,
`mu_x = 0`, `y = 0`. -/
theorem factor_analysis_agent_infer_states_spec_witness :
    (FactorAnalysisAgent_infer_states Inv.inv (1 : Matrix (Fin 1) (Fin 1) ℝ) 1 0
          (fun _ _ => (0 : ℝ) : Fin 1 → Fin 1 → ℝ)).1 *
        ((1 : Matrix (Fin 1) (Fin 1) ℝ)⁻¹ +
          ((1 : ℕ) : ℝ) • (1 : Matrix (Fin 1) (Fin 1) ℝ)⁻¹) = 1 :=
  (factor_analysis_agent_infer_states_spec 1 1 0 (fun _ _ => (0 : ℝ))
    (by simp) (by simp)
    (by
      rw [inv_one]
      have hdet : ((1 : Matrix (Fin 1) (Fin 1) ℝ) + ((1 : ℕ) : ℝ) • 1).det = 2 := by
        simp [Matrix.det_fin_one, Matrix.add_apply, Matrix.smul_apply,
          Matrix.one_apply]
        norm_num
      rw [hdet]
      exact isUnit_iff_ne_zero.mpr (by norm_num))).2.2

/-! ### `FactorAnalysisEMAgent` (ch3/6_factor_analysis_em.ipynb)

`run_EM(Y)` computes the sample covariance `S = np.cov(Y)` once, then for
`j in range(J)` performs the E-step `_infer_states` (storing the posterior
covariance and the sample-averaged posterior mean at index `j`) and the
M-step `_learn_parameters` (writing `Theta[j+1]` and `cov_y[j+1]` only when
`j+1 < J`). `numpy.linalg.inv` appears at two shapes and is passed in as
`minvD` (`D x D`) and `minvC` (`C x C`). -/

/-- Row mean of a `D x N` data matrix (`np.mean` along samples). -/
def np_row_mean {α : Type} [Field α] {D N : ℕ} (Y : Matrix (Fin D) (Fin N) α)
    (i : Fin D) : α :=
  (∑ s, Y i s) / N

/-- `np.cov` of a `D x N` data matrix: rows are variables, denominator
`N - 1`. -/
def np_cov {α : Type} [Field α] {D N : ℕ} (Y : Matrix (Fin D) (Fin N) α) :
    Matrix (Fin D) (Fin D) α :=
  Matrix.of fun i k =>
    (∑ s, (Y i s - np_row_mean Y i) * (Y k s - np_row_mean Y k)) / ((N : α) - 1)

/-- `np.diag(np.diag(A))`: zero out all off-diagonal entries. -/
def diagDiag {α : Type} [Field α] {D : ℕ} (A : Matrix (Fin D) (Fin D) α) :
    Matrix (Fin D) (Fin D) α :=
  Matrix.diagonal (fun i => A i i)

/-- E-step: `beta = Theta.T @ inv(Theta @ Theta.T + cov_y)`. -/
def em_beta {α : Type} [Field α] {Cd D : ℕ}
    (minvD : Matrix (Fin D) (Fin D) α → Matrix (Fin D) (Fin D) α)
    (Theta : Matrix (Fin D) (Fin Cd) α) (cov_y : Matrix (Fin D) (Fin D) α) :
    Matrix (Fin Cd) (Fin D) α :=
  Theta.transpose * minvD (Theta * Theta.transpose + cov_y)

/-- E-step: per-sample posterior means `posterior_mean_s = beta @ Y`. -/
def em_posterior_mean_s {α : Type} [Field α] {Cd D N : ℕ}
    (minvD : Matrix (Fin D) (Fin D) α → Matrix (Fin D) (Fin D) α)
    (Y : Matrix (Fin D) (Fin N) α)
    (Theta : Matrix (Fin D) (Fin Cd) α) (cov_y : Matrix (Fin D) (Fin D) α) :
    Matrix (Fin Cd) (Fin N) α :=
  em_beta minvD Theta cov_y * Y

/-- E-step: posterior covariance `I - beta @ Theta`. -/
def em_posterior_cov {α : Type} [Field α] {Cd D : ℕ}
    (minvD : Matrix (Fin D) (Fin D) α → Matrix (Fin D) (Fin D) α)
    (Theta : Matrix (Fin D) (Fin Cd) α) (cov_y : Matrix (Fin D) (Fin D) α) :
    Matrix (Fin Cd) (Fin Cd) α :=
  1 - em_beta minvD Theta cov_y * Theta

/-- E-step: sample-averaged posterior mean
`np.mean(posterior_mean_s, axis=1)`. -/
def em_posterior_mean {α : Type} [Field α] {Cd D N : ℕ}
    (minvD : Matrix (Fin D) (Fin D) α → Matrix (Fin D) (Fin D) α)
    (Y : Matrix (Fin D) (Fin N) α)
    (Theta : Matrix (Fin D) (Fin Cd) α) (cov_y : Matrix (Fin D) (Fin D) α) :
    Fin Cd → α :=
  fun c => (∑ s, em_posterior_mean_s minvD Y Theta cov_y c s) / N

/-- M-step: `delta = Y @ posterior_mean_s.T`. -/
def em_delta {α : Type} [Field α] {Cd D N : ℕ}
    (minvD : Matrix (Fin D) (Fin D) α → Matrix (Fin D) (Fin D) α)
    (Y : Matrix (Fin D) (Fin N) α)
    (Theta : Matrix (Fin D) (Fin Cd) α) (cov_y : Matrix (Fin D) (Fin D) α) :
    Matrix (Fin D) (Fin Cd) α :=
  Y * (em_posterior_mean_s minvD Y Theta cov_y).transpose

/-- M-step: `gamma = posterior_mean_s @ posterior_mean_s.T + N * posterior_cov`. -/
def em_gamma {α : Type} [Field α] {Cd D N : ℕ}
    (minvD : Matrix (Fin D) (Fin D) α → Matrix (Fin D) (Fin D) α)
    (Y : Matrix (Fin D) (Fin N) α)
    (Theta : Matrix (Fin D) (Fin Cd) α) (cov_y : Matrix (Fin D) (Fin D) α) :
    Matrix (Fin Cd) (Fin Cd) α :=
  em_posterior_mean_s minvD Y Theta cov_y *
      (em_posterior_mean_s minvD Y Theta cov_y).transpose +
    (N : α) • em_posterior_cov minvD Theta cov_y

/-- M-step: `Theta[j+1] = delta @ inv(gamma)`. -/
def em_next_Theta {α : Type} [Field α] {Cd D N : ℕ}
    (minvD : Matrix (Fin D) (Fin D) α → Matrix (Fin D) (Fin D) α)
    (minvC : Matrix (Fin Cd) (Fin Cd) α → Matrix (Fin Cd) (Fin Cd) α)
    (Y : Matrix (Fin D) (Fin N) α)
    (Theta : Matrix (Fin D) (Fin Cd) α) (cov_y : Matrix (Fin D) (Fin D) α) :
    Matrix (Fin D) (Fin Cd) α :=
  em_delta minvD Y Theta cov_y * minvC (em_gamma minvD Y Theta cov_y)

/-- M-step: `cov_y[j+1] = diag(diag(S - Theta[j+1] @ delta.T / N))`. -/
def em_next_cov_y {α : Type} [Field α] {Cd D N : ℕ}
    (minvD : Matrix (Fin D) (Fin D) α → Matrix (Fin D) (Fin D) α)
    (minvC : Matrix (Fin Cd) (Fin Cd) α → Matrix (Fin Cd) (Fin Cd) α)
    (Y : Matrix (Fin D) (Fin N) α)
    (Theta : Matrix (Fin D) (Fin Cd) α) (cov_y : Matrix (Fin D) (Fin D) α) :
    Matrix (Fin D) (Fin D) α :=
  diagDiag (np_cov Y -
    (N : α)⁻¹ • (em_next_Theta minvD minvC Y Theta cov_y *
      (em_delta minvD Y Theta cov_y).transpose))

/-- The parameter iterates `(Theta[j], cov_y[j])` produced by `run_EM`,
starting from the caller-supplied initialization. -/
def FactorAnalysisEMAgent_params {α : Type} [Field α] {Cd D N : ℕ}
    (minvD : Matrix (Fin D) (Fin D) α → Matrix (Fin D) (Fin D) α)
    (minvC : Matrix (Fin Cd) (Fin Cd) α → Matrix (Fin Cd) (Fin Cd) α)
    (Y : Matrix (Fin D) (Fin N) α)
    (Theta_init : Matrix (Fin D) (Fin Cd) α)
    (cov_y_init : Matrix (Fin D) (Fin D) α) :
    ℕ → Matrix (Fin D) (Fin Cd) α × Matrix (Fin D) (Fin D) α
  | 0 => (Theta_init, cov_y_init)
  | j + 1 =>
    let p := FactorAnalysisEMAgent_params minvD minvC Y Theta_init cov_y_init j
    (em_next_Theta minvD minvC Y p.1 p.2, em_next_cov_y minvD minvC Y p.1 p.2)

/-- The `Theta` array of the agent, indexed over the `J` iterations. -/
def FactorAnalysisEMAgent_Theta_arr {α : Type} [Field α] {Cd D N : ℕ} (J : ℕ)
    (minvD : Matrix (Fin D) (Fin D) α → Matrix (Fin D) (Fin D) α)
    (minvC : Matrix (Fin Cd) (Fin Cd) α → Matrix (Fin Cd) (Fin Cd) α)
    (Y : Matrix (Fin D) (Fin N) α)
    (Theta_init : Matrix (Fin D) (Fin Cd) α)
    (cov_y_init : Matrix (Fin D) (Fin D) α) :
    Fin J → Matrix (Fin D) (Fin Cd) α :=
  fun j => (FactorAnalysisEMAgent_params minvD minvC Y Theta_init cov_y_init j.val).1

/-- The `cov_y` array of the agent, indexed over the `J` iterations. -/
def FactorAnalysisEMAgent_cov_y_arr {α : Type} [Field α] {Cd D N : ℕ} (J : ℕ)
    (minvD : Matrix (Fin D) (Fin D) α → Matrix (Fin D) (Fin D) α)
    (minvC : Matrix (Fin Cd) (Fin Cd) α → Matrix (Fin Cd) (Fin Cd) α)
    (Y : Matrix (Fin D) (Fin N) α)
    (Theta_init : Matrix (Fin D) (Fin Cd) α)
    (cov_y_init : Matrix (Fin D) (Fin D) α) :
    Fin J → Matrix (Fin D) (Fin D) α :=
  fun j => (FactorAnalysisEMAgent_params minvD minvC Y Theta_init cov_y_init j.val).2

/-- The `posterior_cov` array of the agent (stored by the E-step at index `j`). -/
def FactorAnalysisEMAgent_posterior_cov_arr {α : Type} [Field α] {Cd D N : ℕ}
    (J : ℕ)
    (minvD : Matrix (Fin D) (Fin D) α → Matrix (Fin D) (Fin D) α)
    (minvC : Matrix (Fin Cd) (Fin Cd) α → Matrix (Fin Cd) (Fin Cd) α)
    (Y : Matrix (Fin D) (Fin N) α)
    (Theta_init : Matrix (Fin D) (Fin Cd) α)
    (cov_y_init : Matrix (Fin D) (Fin D) α) :
    Fin J → Matrix (Fin Cd) (Fin Cd) α :=
  fun j =>
    let p := FactorAnalysisEMAgent_params minvD minvC Y Theta_init cov_y_init j.val
    em_posterior_cov minvD p.1 p.2

/-- The `posterior_mean` array of the agent (stored by the E-step at index `j`). -/
def FactorAnalysisEMAgent_posterior_mean_arr {α : Type} [Field α] {Cd D N : ℕ}
    (J : ℕ)
    (minvD : Matrix (Fin D) (Fin D) α → Matrix (Fin D) (Fin D) α)
    (minvC : Matrix (Fin Cd) (Fin Cd) α → Matrix (Fin Cd) (Fin Cd) α)
    (Y : Matrix (Fin D) (Fin N) α)
    (Theta_init : Matrix (Fin D) (Fin Cd) α)
    (cov_y_init : Matrix (Fin D) (Fin D) α) :
    Fin J → (Fin Cd → α) :=
  fun j =>
    let p := FactorAnalysisEMAgent_params minvD minvC Y Theta_init cov_y_init j.val
    em_posterior_mean minvD Y p.1 p.2

/-- The per-iteration trace of `run_EM`: the loop body runs for exactly the
`J` values of `j in range(J)`. -/
def FactorAnalysisEMAgent_trace {α : Type} [Field α] {Cd D N : ℕ} (J : ℕ)
    (minvD : Matrix (Fin D) (Fin D) α → Matrix (Fin D) (Fin D) α)
    (minvC : Matrix (Fin Cd) (Fin Cd) α → Matrix (Fin Cd) (Fin Cd) α)
    (Y : Matrix (Fin D) (Fin N) α)
    (Theta_init : Matrix (Fin D) (Fin Cd) α)
    (cov_y_init : Matrix (Fin D) (Fin D) α) :
    List (Matrix (Fin D) (Fin Cd) α × Matrix (Fin D) (Fin D) α) :=
  (List.range J).map (FactorAnalysisEMAgent_params minvD minvC Y Theta_init cov_y_init)

/-- C6: with `numpy.linalg.inv` instantiated as matrix inversion, every
iteration `j` of `run_EM` computes `beta = Theta[j].T @ inv(Theta[j] @
Theta[j].T + cov_y[j])`, stores the sample-averaged posterior mean of
`beta @ Y` and the posterior covariance `I - beta @ Theta[j]` at index `j`;
exactly when `j+1 < J` the M-step writes `Theta[j+1] = delta @ inv(gamma)`
and `cov_y[j+1] = diag(diag(Cov(Y) - Theta[j+1] @ delta.T / N))`, which is
diagonal; and the loop trace has exactly `J` entries (no convergence test). -/
theorem factor_analysis_em_run_spec {Cd D N : ℕ}
    (Y : Matrix (Fin D) (Fin N) ℝ) (Theta_init : Matrix (Fin D) (Fin Cd) ℝ)
    (cov_y_init : Matrix (Fin D) (Fin D) ℝ) (J j : ℕ) (h : j + 1 < J) :
    em_beta Inv.inv
        (FactorAnalysisEMAgent_params Inv.inv Inv.inv Y Theta_init cov_y_init j).1
        (FactorAnalysisEMAgent_params Inv.inv Inv.inv Y Theta_init cov_y_init j).2 =
      ((FactorAnalysisEMAgent_params Inv.inv Inv.inv Y Theta_init cov_y_init j).1).transpose *
        ((FactorAnalysisEMAgent_params Inv.inv Inv.inv Y Theta_init cov_y_init j).1 *
            ((FactorAnalysisEMAgent_params Inv.inv Inv.inv Y Theta_init cov_y_init j).1).transpose +
          (FactorAnalysisEMAgent_params Inv.inv Inv.inv Y Theta_init cov_y_init j).2)⁻¹ ∧
    FactorAnalysisEMAgent_posterior_mean_arr J Inv.inv Inv.inv Y Theta_init
        cov_y_init ⟨j, Nat.lt_of_succ_lt h⟩ =
      (fun c => (∑ s,
        (em_beta Inv.inv
          (FactorAnalysisEMAgent_params Inv.inv Inv.inv Y Theta_init cov_y_init j).1
          (FactorAnalysisEMAgent_params Inv.inv Inv.inv Y Theta_init cov_y_init j).2 *
            Y) c s) / N) ∧
    FactorAnalysisEMAgent_posterior_cov_arr J Inv.inv Inv.inv Y Theta_init
        cov_y_init ⟨j, Nat.lt_of_succ_lt h⟩ =
      1 - em_beta Inv.inv
          (FactorAnalysisEMAgent_params Inv.inv Inv.inv Y Theta_init cov_y_init j).1
          (FactorAnalysisEMAgent_params Inv.inv Inv.inv Y Theta_init cov_y_init j).2 *
        (FactorAnalysisEMAgent_params Inv.inv Inv.inv Y Theta_init cov_y_init j).1 ∧
    FactorAnalysisEMAgent_Theta_arr J Inv.inv Inv.inv Y Theta_init cov_y_init
        ⟨j + 1, h⟩ =
      em_delta Inv.inv Y
          (FactorAnalysisEMAgent_params Inv.inv Inv.inv Y Theta_init cov_y_init j).1
          (FactorAnalysisEMAgent_params Inv.inv Inv.inv Y Theta_init cov_y_init j).2 *
        (em_gamma Inv.inv Y
          (FactorAnalysisEMAgent_params Inv.inv Inv.inv Y Theta_init cov_y_init j).1
          (FactorAnalysisEMAgent_params Inv.inv Inv.inv Y Theta_init cov_y_init j).2)⁻¹ ∧
    FactorAnalysisEMAgent_cov_y_arr J Inv.inv Inv.inv Y Theta_init cov_y_init
        ⟨j + 1, h⟩ =
      diagDiag (np_cov Y -
        (N : ℝ)⁻¹ •
          (FactorAnalysisEMAgent_Theta_arr J Inv.inv Inv.inv Y Theta_init
              cov_y_init ⟨j + 1, h⟩ *
            (em_delta Inv.inv Y
              (FactorAnalysisEMAgent_params Inv.inv Inv.inv Y Theta_init cov_y_init j).1
              (FactorAnalysisEMAgent_params Inv.inv Inv.inv Y Theta_init cov_y_init j).2).transpose)) ∧
    (∀ i k : Fin D, i ≠ k →
      FactorAnalysisEMAgent_cov_y_arr J Inv.inv Inv.inv Y Theta_init cov_y_init
        ⟨j + 1, h⟩ i k = 0) ∧
    (FactorAnalysisEMAgent_trace J Inv.inv Inv.inv Y Theta_init cov_y_init).length
      = J := by
  refine ⟨rfl, rfl, rfl, rfl, rfl, ?_, by simp [FactorAnalysisEMAgent_trace]⟩
  intro i k hik
  exact Matrix.diagonal_apply_ne _ hik

/-- Witness for C6 at `Cd = D = N = 1`, `Y = Theta_init = cov_y_init = 1`,
`J = 2`, `j = 0`: the trace-length clause of the theorem. -/
theorem factor_analysis_em_run_spec_witness :
    (FactorAnalysisEMAgent_trace 2 Inv.inv Inv.inv
      (1 : Matrix (Fin 1) (Fin 1) ℝ) (1 : Matrix (Fin 1) (Fin 1) ℝ)
      (1 : Matrix (Fin 1) (Fin 1) ℝ)).length = 2 :=
  (factor_analysis_em_run_spec (1 : Matrix (Fin 1) (Fin 1) ℝ) 1 1 2 0
    (by norm_num)).2.2.2.2.2.2

/-! ### `MultipleLinearRegressionAgent.learn_parameters` (unnamed/part_000)

The notebook defines a module-level one-parameter function
`build_data_matrix(X_star)`, but `learn_parameters` invokes the bare name
with two positional arguments: `build_data_matrix(self, X_star)`. Python
resolves the bare name to the module-level function, so the call raises a
`TypeError` before `mle_theta` runs and `self.theta` is never assigned.
Python calls are modelled by a positional-argument list of tagged values;
the unreachable success path takes the numpy-pinv-based estimator as the
parameter `mle`. -/

/-- Module-level `build_data_matrix`: prepend a column of ones
(`np.insert(X_star, 0, 1, axis=1)`). -/
def build_data_matrix {α : Type} [Field α] (X_star : List (List α)) :
    List (List α) :=
  X_star.map (fun row => 1 :: row)

/-- A Python value at this call site: the agent object or an array. -/
inductive PyVal (α : Type) where
  | obj : PyVal α
  | mat : List (List α) → PyVal α

/-- The module-level `build_data_matrix` as a Python callable applied to a
positional-argument list: it accepts exactly one argument. -/
def build_data_matrix_call {α : Type} [Field α] (args : List (PyVal α)) :
    Except String (PyVal α) :=
  match args with
  | [PyVal.mat X] => Except.ok (PyVal.mat (build_data_matrix X))
  | [PyVal.obj] => Except.error "TypeError: unsupported array type"
  | _ =>
    Except.error
      "TypeError: build_data_matrix takes 1 positional argument but 2 were given"

/-- The agent object: `theta` is unset until `learn_parameters` succeeds. -/
structure MultipleLinearRegressionAgent (α : Type) where
  theta : Option (List α)

/-- `learn_parameters` (unnamed/part_000): evaluates
`build_data_matrix(self, X_star)` — two positional arguments — and only on
success would assign `self.theta = self.mle_theta(X, y)` (the estimator is
the parameter `mle`). On error the exception propagates and the agent is
unchanged. -/
def MultipleLinearRegressionAgent_learn_parameters {α : Type} [Field α]
    (mle : List (List α) → List α → List α)
    (a : MultipleLinearRegressionAgent α) (X_star : List (List α))
    (y : List α) : Except String (MultipleLinearRegressionAgent α) :=
  match build_data_matrix_call [PyVal.obj, PyVal.mat X_star] with
  | Except.error e => Except.error e
  | Except.ok (PyVal.mat X) => Except.ok { a with theta := some (mle X y) }
  | Except.ok PyVal.obj => Except.error "TypeError: unsupported array type"

/-- C10: for every input, `learn_parameters` in unnamed/part_000 raises a
`TypeError` from the two-argument call of the one-parameter module-level
`build_data_matrix`, before any parameter estimation; no updated agent is
ever returned, so `self.theta` is never assigned. -/
theorem part000_learn_parameters_type_error {α : Type} [Field α]
    (mle : List (List α) → List α → List α)
    (a : MultipleLinearRegressionAgent α) (X_star : List (List α))
    (y : List α) :
    MultipleLinearRegressionAgent_learn_parameters mle a X_star y =
        Except.error
          "TypeError: build_data_matrix takes 1 positional argument but 2 were given" ∧
      ∀ b : MultipleLinearRegressionAgent α,
        MultipleLinearRegressionAgent_learn_parameters mle a X_star y ≠
          Except.ok b := by
  refine ⟨rfl, ?_⟩
  intro b hb
  simp [MultipleLinearRegressionAgent_learn_parameters,
    build_data_matrix_call] at hb

/-! ### `MultipleLinearRegressionAgent` (ch3/3a_supervised_linear_regression.ipynb)

`mle_theta(X, y)` returns `np.linalg.pinv(X) @ y`. `np.linalg.pinv` is the
parameter `pinv`, assumed (as numpy guarantees) to return a Moore-Penrose
pseudoinverse. `normal_equation_theta` is the spec-side formula
`(X.T X)⁻¹ X.T y`, and `least_squares_loss` is the objective the sklearn
`LinearRegression` reference minimizes. -/

/-- The four Penrose conditions characterizing `np.linalg.pinv(A) = P`. -/
def IsMoorePenrose {m n : ℕ} (A : Matrix (Fin m) (Fin n) ℝ)
    (P : Matrix (Fin n) (Fin m) ℝ) : Prop :=
  A * P * A = A ∧ P * A * P = P ∧ (A * P).transpose = A * P ∧
    (P * A).transpose = P * A

/-- `MultipleLinearRegressionAgent.mle_theta`: `np.linalg.pinv(X) @ y`. -/
def MultipleLinearRegressionAgent_mle_theta {m n : ℕ}
    (pinv : Matrix (Fin m) (Fin n) ℝ → Matrix (Fin n) (Fin m) ℝ)
    (X : Matrix (Fin m) (Fin n) ℝ) (y : Fin m → ℝ) : Fin n → ℝ :=
  (pinv X).mulVec y

/-- Spec-side normal-equation estimator `(X.T X)⁻¹ X.T y`. -/
noncomputable def normal_equation_theta {m n : ℕ} (X : Matrix (Fin m) (Fin n) ℝ)
    (y : Fin m → ℝ) : Fin n → ℝ :=
  ((X.transpose * X)⁻¹ * X.transpose).mulVec y

/-- The least-squares objective minimized by the sklearn reference. -/
def least_squares_loss {m n : ℕ} (X : Matrix (Fin m) (Fin n) ℝ)
    (y : Fin m → ℝ) (theta : Fin n → ℝ) : ℝ :=
  ∑ i, (X.mulVec theta i - y i) ^ 2

theorem transpose_eq_transpose_mul_self_of_mp {m n : ℕ}
    (X : Matrix (Fin m) (Fin n) ℝ) (P : Matrix (Fin n) (Fin m) ℝ)
    (hmp : IsMoorePenrose X P) :
    X.transpose = X.transpose * (X * P) := by
  conv_lhs => rw [← hmp.1]
  rw [Matrix.transpose_mul, hmp.2.2.1]

theorem mp_eq_normal_equation {m n : ℕ}
    (X : Matrix (Fin m) (Fin n) ℝ) (P : Matrix (Fin n) (Fin m) ℝ)
    (hdet : IsUnit (X.transpose * X).det) (hmp : IsMoorePenrose X P) :
    P = (X.transpose * X)⁻¹ * X.transpose := by
  have hXt := transpose_eq_transpose_mul_self_of_mp X P hmp
  calc P = 1 * P := (Matrix.one_mul P).symm
    _ = ((X.transpose * X)⁻¹ * (X.transpose * X)) * P := by
        rw [Matrix.nonsing_inv_mul _ hdet]
    _ = (X.transpose * X)⁻¹ * ((X.transpose * X) * P) := by
        rw [Matrix.mul_assoc]
    _ = (X.transpose * X)⁻¹ * (X.transpose * (X * P)) := by
        rw [Matrix.mul_assoc]
    _ = (X.transpose * X)⁻¹ * X.transpose := by rw [← hXt]

theorem normal_equation_orthogonal {m n : ℕ}
    (X : Matrix (Fin m) (Fin n) ℝ) (y : Fin m → ℝ)
    (hdet : IsUnit (X.transpose * X).det) :
    X.transpose.mulVec (X.mulVec (normal_equation_theta X y) - y) = 0 := by
  rw [Matrix.mulVec_sub, normal_equation_theta, Matrix.mulVec_mulVec,
    Matrix.mulVec_mulVec, ← Matrix.mul_assoc,
    Matrix.mul_nonsing_inv _ hdet, Matrix.one_mul, sub_self]

/-- C8: if `X.T X` is invertible (full column rank of the data matrix) and
`pinv X` satisfies the Penrose conditions (the numpy guarantee), then
`mle_theta` equals the normal-equation solution `(X.T X)⁻¹ X.T y`, that
solution is the unique minimizer of the least-squares objective the sklearn
reference minimizes, and the two estimators give identical predictions on
any test matrix. -/
theorem mle_theta_matches_reference {m n : ℕ}
    (pinv : Matrix (Fin m) (Fin n) ℝ → Matrix (Fin n) (Fin m) ℝ)
    (X : Matrix (Fin m) (Fin n) ℝ) (y : Fin m → ℝ)
    (hdet : IsUnit (X.transpose * X).det)
    (hmp : IsMoorePenrose X (pinv X)) :
    MultipleLinearRegressionAgent_mle_theta pinv X y =
        normal_equation_theta X y ∧
      (∀ theta : Fin n → ℝ, theta ≠ normal_equation_theta X y →
        least_squares_loss X y (normal_equation_theta X y) <
          least_squares_loss X y theta) ∧
      (∀ (mt : ℕ) (X_test : Matrix (Fin mt) (Fin n) ℝ),
        X_test.mulVec (MultipleLinearRegressionAgent_mle_theta pinv X y) =
          X_test.mulVec (normal_equation_theta X y)) := by
  have heq : MultipleLinearRegressionAgent_mle_theta pinv X y =
      normal_equation_theta X y := by
    rw [MultipleLinearRegressionAgent_mle_theta, normal_equation_theta,
      mp_eq_normal_equation X (pinv X) hdet hmp]
  refine ⟨heq, ?_, fun mt X_test => by rw [heq]⟩
  intro theta hne
  set th := normal_equation_theta X y with hth
  set r := X.mulVec th - y with hr
  set w := X.mulVec (theta - th) with hw
  have hdecomp : ∀ i, X.mulVec theta i - y i = r i + w i := by
    intro i
    rw [hr, hw]
    simp only [Matrix.mulVec_sub, Pi.sub_apply]
    ring
  have horth : Matrix.dotProduct r w = 0 := by
    have h1 : X.transpose.mulVec r = 0 := by
      rw [hr, hth]
      exact normal_equation_orthogonal X y hdet
    calc Matrix.dotProduct r w
        = Matrix.dotProduct r (X.mulVec (theta - th)) := by rw [hw]
      _ = Matrix.dotProduct (Matrix.vecMul r X) (theta - th) :=
          Matrix.dotProduct_mulVec _ _ _
      _ = Matrix.dotProduct (X.transpose.mulVec r) (theta - th) := by
          rw [Matrix.mulVec_transpose]
      _ = Matrix.dotProduct (0 : Fin n → ℝ) (theta - th) := by rw [h1]
      _ = 0 := Matrix.zero_dotProduct _
  have hsplit : least_squares_loss X y theta =
      least_squares_loss X y th + 2 * Matrix.dotProduct r w + ∑ i, w i ^ 2 := by
    rw [least_squares_loss, least_squares_loss]
    have hterm : ∀ i ∈ Finset.univ, (X.mulVec theta i - y i) ^ 2 =
        (X.mulVec th i - y i) ^ 2 + 2 * (r i * w i) + w i ^ 2 := by
      intro i _
      have hri : X.mulVec th i - y i = r i := by rw [hr]; rfl
      rw [hdecomp i, hri]
      ring
    rw [Finset.sum_congr rfl hterm, Finset.sum_add_distrib,
      Finset.sum_add_distrib, Matrix.dotProduct, Finset.mul_sum]
  have hwpos : 0 < ∑ i, w i ^ 2 := by
    rcases (Finset.sum_nonneg (fun i _ => sq_nonneg (w i))).lt_or_eq with h | h
    · exact h
    · exfalso
      have hwzero : ∀ i, w i = 0 := by
        intro i
        have := (Finset.sum_eq_zero_iff_of_nonneg
          (fun i _ => sq_nonneg (w i))).mp h.symm i (Finset.mem_univ i)
        exact pow_eq_zero_iff (by norm_num) |>.mp this
      have hXv : X.mulVec (theta - th) = 0 := funext fun i => hwzero i
      have hv : theta - th = 0 := by
        have h2 : (X.transpose * X).mulVec (theta - th) = 0 := by
          rw [← Matrix.mulVec_mulVec, hXv, Matrix.mulVec_zero]
        calc theta - th
            = (1 : Matrix (Fin n) (Fin n) ℝ).mulVec (theta - th) := by
              rw [Matrix.one_mulVec]
          _ = ((X.transpose * X)⁻¹ * (X.transpose * X)).mulVec (theta - th) := by
              rw [Matrix.nonsing_inv_mul _ hdet]
          _ = (X.transpose * X)⁻¹.mulVec ((X.transpose * X).mulVec (theta - th)) := by
              rw [Matrix.mulVec_mulVec]
          _ = (X.transpose * X)⁻¹.mulVec 0 := by rw [h2]
          _ = 0 := Matrix.mulVec_zero _
      exact hne (sub_eq_zero.mp hv)
  rw [hsplit, horth]
  linarith

/-- Witness for C8 at `m = n = 1`, `X = 1`, `pinv = fun _ => 1`,
`y = fun _ => 2`. -/
theorem mle_theta_matches_reference_witness :
    MultipleLinearRegressionAgent_mle_theta
        (fun _ => (1 : Matrix (Fin 1) (Fin 1) ℝ)) 1 (fun _ => 2) =
      normal_equation_theta (1 : Matrix (Fin 1) (Fin 1) ℝ) (fun _ => 2) :=
  (mle_theta_matches_reference (fun _ => (1 : Matrix (Fin 1) (Fin 1) ℝ)) 1
    (fun _ => 2) (by simp) ⟨by simp, by simp, by simp, by simp⟩).1
